import Mathlib

/-!
# Verification of the flashcards backend (`flashcards.py`)

A shallow embedding of the flashcards drill engine: response records, cards
(the `Arithmetic` variant, the only concrete card kind), decks with their
selection policy, the worst-first report ordering, the YAML codec, and the
pair-based deck generators.  Python floats (elapsed times, thresholds) are
modelled as rationals; Python exceptions are modelled with `Option`.
-/

namespace Flashcards

/-- `ResponseMetadata`: one attempt — whether it was correct, the raw answer
string given, and how long it took (`time`, seconds). -/
structure ResponseMetadata where
  correct : Bool
  answer : String
  time : ℚ
  deriving DecidableEq, Repr

/-- The `Card.Result` enum: outcome of checking an answer. -/
inductive Result where
  | INCORRECT
  | CORRECT
  | INVALID
  deriving DecidableEq, Repr

/-- A flashcard.  The source has an abstract base class `Card` and one
concrete variant `Arithmetic` (problem text, integer `answer`, response
history); the codec likewise assumes the `Arithmetic` variant, so the model
merges them: `problem` and `responses` are the base-class fields, `answer`
is `Arithmetic`'s. -/
structure Card where
  problem : String
  answer : Int
  responses : List ResponseMetadata
  deriving DecidableEq, Repr

/-- `Card.is_mastered(time_threshold)`: counts correct responses, derives the
incorrect count by subtraction, and if the history is non-empty with more
correct than incorrect looks at the last response (`self.responses[-1]`);
returns `(True, tr.time)` when it is correct and strictly under the
threshold, else `(False, 0)`. -/
def is_mastered (c : Card) (time_threshold : ℚ) : Bool × ℚ :=
  let num_correct := (c.responses.map (fun r => r.correct)).count true
  let num_incorrect := c.responses.length - num_correct
  if c.responses.length > 0 ∧ num_correct > num_incorrect then
    match c.responses.getLast? with
    | some tr => if tr.correct = true ∧ tr.time < time_threshold then (true, tr.time) else (false, 0)
    | none => (false, 0)
  else (false, 0)

/-- `Card.time()`: total elapsed time over the history. -/
def Card.totalTime (c : Card) : ℚ :=
  (c.responses.map (fun r => r.time)).sum

/-! ## Python `int()` parsing

`Arithmetic._check_answer` calls the builtin `int(given_answer)` and treats
any exception as `INVALID`.  `pyInt?` models `int` on strings: surrounding
whitespace is stripped, then an optional sign followed by a non-empty digit
sequence in which single underscores may separate digits. -/

def isPyDigit (ch : Char) : Bool := '0' ≤ ch && ch ≤ '9'

def isPySpace (ch : Char) : Bool :=
  ch = ' ' || ch = '\t' || ch = '\n' || ch = '\r' || ch = '\x0b' || ch = '\x0c'

/-- Digits (with single underscores allowed between digits) to a value. -/
def parseDigitsGo (acc : Nat) : List Char → Option Nat
  | [] => some acc
  | ch :: rest =>
    if isPyDigit ch then parseDigitsGo (10 * acc + (ch.toNat - 48)) rest
    else if ch = '_' then
      match rest with
      | d :: rest2 =>
        if isPyDigit d then parseDigitsGo (10 * acc + (d.toNat - 48)) rest2 else none
      | [] => none
    else none

def parseDigits : List Char → Option Nat
  | [] => none
  | ch :: rest => if isPyDigit ch then parseDigitsGo (ch.toNat - 48) rest else none

/-- `int(s)` for a string `s`: `none` models the `ValueError`. -/
def pyInt? (s : String) : Option Int :=
  let cs := ((s.data.dropWhile isPySpace).reverse.dropWhile isPySpace).reverse
  match cs with
  | '+' :: rest => (parseDigits rest).map (fun n => (n : Int))
  | '-' :: rest => (parseDigits rest).map (fun n => -(n : Int))
  | _ => (parseDigits cs).map (fun n => (n : Int))

/-- `Arithmetic._check_answer(given_answer)`: parse as `int`; `CORRECT` iff
equal to the expected answer, `INCORRECT` otherwise, `INVALID` when parsing
raises. -/
def check_answer (c : Card) (given_answer : String) : Result :=
  match pyInt? given_answer with
  | none => Result.INVALID
  | some n => if c.answer = n then Result.CORRECT else Result.INCORRECT

/-- `Card.log_response(given_answer, time)`: checks the answer; unless the
result is `INVALID`, appends a `ResponseMetadata(result is CORRECT,
given_answer, time)`; returns the result.  The updated card is returned
alongside, modelling the mutation of `self.responses`. -/
def log_response (c : Card) (given_answer : String) (time : ℚ) : Result × Card :=
  let result := check_answer c given_answer
  if result ≠ Result.INVALID then
    (result,
      { c with responses :=
          c.responses ++ [⟨decide (result = Result.CORRECT), given_answer, time⟩] })
  else (result, c)

/-- A sequence of `log_response` calls against one card. -/
def runLog (c : Card) : List (String × ℚ) → Card
  | [] => c
  | (s, t) :: rest => runLog (log_response c s t).2 rest

/-! ## Spec-side mastery predicate (for the refinement claim C1) -/

/-- The spec's wording of `isMastered` truth: history non-empty, strictly
more correct than incorrect responses, most recent record correct with
elapsed strictly under the threshold. -/
def masteredSpecB (c : Card) (th : ℚ) : Bool :=
  !c.responses.isEmpty
    && decide (c.responses.countP (fun r => r.correct) >
        c.responses.countP (fun r => !r.correct))
    && (match c.responses.getLast? with
        | some r => r.correct && decide (r.time < th)
        | none => false)

/-- The elapsed time of the most recent response (`0` for an empty history). -/
def lastElapsed (c : Card) : ℚ :=
  match c.responses.getLast? with
  | some r => r.time
  | none => 0

/-! ## The comparator `Card.__lt__` and CPython's list sort

`Card.__lt__(other)` returns `True` when `self` has strictly fewer
responses, and otherwise falls through to comparing the total elapsed
times.  `sorted(cards, reverse=True)` is modelled by `pySortDesc`:
CPython reverses the list, runs its stable ascending sort, and reverses
the result; for fewer than 64 elements that sort detects one initial run
(a strictly descending prefix is reversed) and binary-inserts the
remaining elements, the pivot landing to the right of elements it is not
less than. -/

/-- `Card.__lt__`: `True` if strictly fewer responses, else compare total
elapsed times. -/
def cardLT (a b : Card) : Bool :=
  if a.responses.length < b.responses.length then true
  else decide (a.totalTime < b.totalTime)

/-- Binary search used by CPython's `binarysort`: returns the insertion
index for `pivot` in `arr[l:r]`, moving left exactly when
`pivot < arr[mid]`. -/
def binSearch (lt : α → α → Bool) (arr : List α) (pivot : α) (l r : Nat) : Nat :=
  if h : l < r then
    let p := l + (r - l) / 2
    if lt pivot (arr.getD p pivot) then binSearch lt arr pivot l p
    else binSearch lt arr pivot (p + 1) r
  else l
termination_by r - l
decreasing_by
  · omega
  · omega

/-- Insert `x` at index `i`. -/
def insertIdx (l : List α) (i : Nat) (x : α) : List α :=
  l.take i ++ x :: l.drop i

/-- CPython `binarysort`: the first list is the already-sorted prefix, each
remaining element is binary-inserted in turn. -/
def binarysort (lt : α → α → Bool) : List α → List α → List α
  | sorted, [] => sorted
  | sorted, x :: rest =>
    binarysort lt (insertIdx sorted (binSearch lt sorted x 0 sorted.length) x) rest

/-- Maximal strictly-descending continuation (`count_run`, descending arm). -/
def takeDesc (lt : α → α → Bool) : α → List α → List α × List α
  | _, [] => ([], [])
  | prev, x :: rest =>
    if lt x prev then (x :: (takeDesc lt x rest).1, (takeDesc lt x rest).2)
    else ([], x :: rest)

/-- Maximal non-descending continuation (`count_run`, ascending arm). -/
def takeAsc (lt : α → α → Bool) : α → List α → List α × List α
  | _, [] => ([], [])
  | prev, x :: rest =>
    if lt x prev then ([], x :: rest)
    else (x :: (takeAsc lt x rest).1, (takeAsc lt x rest).2)

/-- CPython `count_run`: the initial natural run, already put in ascending
order (a strictly descending run is reversed), plus the remainder. -/
def countRun (lt : α → α → Bool) : List α → List α × List α
  | [] => ([], [])
  | [x] => ([x], [])
  | x :: y :: rest =>
    if lt y x then
      ((x :: y :: (takeDesc lt y rest).1).reverse, (takeDesc lt y rest).2)
    else
      (x :: y :: (takeAsc lt y rest).1, (takeAsc lt y rest).2)

/-- CPython's ascending stable sort for lists of fewer than 64 elements:
one natural run, then binary insertion of the rest. -/
def pySortAsc (lt : α → α → Bool) (l : List α) : List α :=
  binarysort lt (countRun lt l).1 (countRun lt l).2

/-- `sorted(l, reverse=True)`: reverse, sort ascending, reverse. -/
def pySortDesc (lt : α → α → Bool) (l : List α) : List α :=
  (pySortAsc lt l.reverse).reverse

/-- A comparator induced by a key, used to analyse the sort on decks where
`Card.__lt__` reduces to the total-time comparison. -/
def keyLT (key : α → ℚ) (a b : α) : Bool := decide (key a < key b)

/-- Plain linear insertion before the first element the pivot is less than;
on a sorted list this lands at the same index as `binSearch`. -/
def linInsert (lt : α → α → Bool) (x : α) : List α → List α
  | [] => [x]
  | y :: ys => if lt x y then x :: y :: ys else y :: linInsert lt x ys

/-! ## Deck -/

/-- `Deck`: an ordered group of cards and the mastery time threshold
(default 5 in the source). -/
structure Deck where
  cards : List Card
  time_threshold : ℚ
  deriving DecidableEq, Repr

/-- The indices collected by `Deck.get_card`'s loop: positions of cards not
mastered at the deck's threshold (`on_deck`). -/
def onDeck (d : Deck) : List Nat :=
  ((d.cards.enum).filter
    (fun p => !(is_mastered p.2 d.time_threshold).1)).map (fun p => p.1)

/-- Python `max(cards, key=f)`: the first element attaining the maximal key,
`none` (a `ValueError`) on an empty list. -/
def pyMax (key : Card → ℚ) : List Card → Option Card
  | [] => none
  | x :: xs => some (xs.foldl (fun best c => if key best < key c then c else best) x)

/-- `Deck.get_card()`: if any card is unmastered, return one chosen by
`secrets.choice` among the unmastered positions — the random draw is the
explicit parameter `k`, reduced modulo the number of candidates so every
outcome of the choice is some `k`; otherwise return the card maximising the
mastery-time component.  `none` models the exception on an empty deck. -/
def get_card (d : Deck) (k : Nat) : Option Card :=
  match onDeck d with
  | [] => pyMax (fun c => (is_mastered c d.time_threshold).2) d.cards
  | i :: is => d.cards.get? ((i :: is).getD (k % (i :: is).length) 0)

/-- `Deck.progress()`: mastered count and total count. -/
def progress (d : Deck) : Nat × Nat :=
  ((d.cards.filter (fun c => (is_mastered c d.time_threshold).1)).length,
    d.cards.length)

/-! ## Codec (`as_yaml_dict` / `from_yaml_dict`) -/

/-- The YAML dict emitted for one response: keys `correct`, `answer`,
`time`. -/
structure ResponseYaml where
  correct : Bool
  answer : String
  time : ℚ
  deriving DecidableEq, Repr

/-- The YAML dict emitted for one `Arithmetic` card: keys `problem`,
`answer`, `responses`. -/
structure CardYaml where
  problem : String
  answer : Int
  responses : List ResponseYaml
  deriving DecidableEq, Repr

/-- The YAML dict emitted for a deck: keys `time_threshold`, `cards`. -/
structure DeckYaml where
  time_threshold : ℚ
  cards : List CardYaml
  deriving DecidableEq, Repr

/-- `ResponseMetadata.as_yaml_dict`. -/
def ResponseMetadata.as_yaml_dict (r : ResponseMetadata) : ResponseYaml :=
  ⟨r.correct, r.answer, r.time⟩

/-- `ResponseMetadata.from_yaml_dict`. -/
def ResponseMetadata.from_yaml_dict (y : ResponseYaml) : ResponseMetadata :=
  ⟨y.correct, y.answer, y.time⟩

/-- `Arithmetic.as_yaml_dict`. -/
def Card.as_yaml_dict (c : Card) : CardYaml :=
  ⟨c.problem, c.answer, c.responses.map ResponseMetadata.as_yaml_dict⟩

/-- `Arithmetic.from_yaml_dict`: rebuilds the card and appends each decoded
response in document order. -/
def Card.from_yaml_dict (y : CardYaml) : Card :=
  ⟨y.problem, y.answer, y.responses.map ResponseMetadata.from_yaml_dict⟩

/-- `Deck.as_yaml_dict`: threshold plus the cards in
`sorted(self.cards, reverse=True)` order. -/
def Deck.as_yaml_dict (d : Deck) : DeckYaml :=
  ⟨d.time_threshold, (pySortDesc cardLT d.cards).map Card.as_yaml_dict⟩

/-- `Deck.from_yaml_dict`: assumes every card is `Arithmetic`. -/
def Deck.from_yaml_dict (y : DeckYaml) : Deck :=
  ⟨y.cards.map Card.from_yaml_dict, y.time_threshold⟩

/-! ## Report rendering (`Card.__str__`, `Deck.worst_cards`) -/

/-- Python `f"{q:.1f}"` on an exactly-representable value: round half to
even at one decimal place and print one digit after the point. -/
def fmt1 (q : ℚ) : String :=
  let sign := if q < 0 then "-" else ""
  let q10 := |q| * 10
  let fl : ℤ := ⌊q10⌋
  let frac := q10 - (fl : ℚ)
  let r : ℤ :=
    if frac > 1 / 2 then fl + 1
    else if frac < 1 / 2 then fl
    else if fl % 2 = 0 then fl else fl + 1
  let n := r.toNat
  sign ++ toString (n / 10) ++ "." ++ toString (n % 10)

/-- `Arithmetic.__repr__`: `f"{self.problem}{self.answer}"`. -/
def card_repr (c : Card) : String :=
  c.problem ++ toString c.answer

/-- `Card.__str__`: counts correct responses, folds for the best correct
time (sentinel 10000), then branches on
`(len(self.responses) == 1) and r.correct` where `r` is the loop variable
left over from the best-time loop.  Python's `and` short-circuits, so `r`
is only read when the length test succeeds (and then the loop has run);
the unreachable unbound-variable case is modelled by `none`. -/
def card_str (c : Card) : Option String :=
  let num_correct := c.responses.countP (fun r => r.correct)
  let best_time :=
    c.responses.foldl
      (fun bt r => if r.correct = true ∧ r.time < bt then r.time else bt) 10000
  let elseLine :=
    card_repr c ++ "    (" ++ toString num_correct ++ " correct out of " ++
      toString c.responses.length ++ " attempts; best time = " ++
      fmt1 best_time ++ " s)"
  if c.responses.length = 1 then
    match c.responses.getLast? with
    | none => none
    | some r =>
      if r.correct then
        some (card_repr c ++ "    (Best time = " ++ fmt1 best_time ++ " s)")
      else some elseLine
  else some elseLine

/-- The card order of the report body and of the encoded snapshot:
`sorted(self.cards, reverse=True)`. -/
def worstOrder (d : Deck) : List Card :=
  pySortDesc cardLT d.cards

/-- Render each card in turn, stopping (exception propagation) if any
rendering fails. -/
def renderAll : List Card → Option (List String)
  | [] => some []
  | c :: cs =>
    match card_str c, renderAll cs with
    | some s, some ss => some (s :: ss)
    | _, _ => none

/-- The lines of `Deck.worst_cards()`'s loop, in order (the total-time
header, which no claim concerns, is elided); `none` when rendering any card
would raise. -/
def worst_cards (d : Deck) : Option (List String) :=
  renderAll (worstOrder d)

/-! ## Generators -/

/-- `generate_division(vals, time_threshold)`: the loop appends a card with
prompt `f"{x*y} ÷ {x} = "` and answer `y` for every pair whose first
coordinate is non-zero. -/
def generate_division (vals : List (Int × Int)) (time_threshold : ℚ) : Deck :=
  ⟨vals.foldl
    (fun cards p =>
      if p.1 = 0 then cards
      else cards ++ [⟨toString (p.1 * p.2) ++ " ÷ " ++ toString p.1 ++ " = ", p.2, []⟩])
    [], time_threshold⟩

/-- The card `generate_division` builds for a pair `(x, y)` with `x ≠ 0`. -/
def divisionCard (p : Int × Int) : Card :=
  ⟨toString (p.1 * p.2) ++ " ÷ " ++ toString p.1 ++ " = ", p.2, []⟩

/-! ## Concrete example cards and decks -/

/-- An item with one response totalling 2.0 seconds. -/
def cardA1 : Card := ⟨"A", 0, [⟨true, "0", 2⟩]⟩

/-- An item with three responses totalling 1.0 seconds. -/
def cardB3 : Card :=
  ⟨"B", 0, [⟨true, "0", 1 / 2⟩, ⟨false, "1", 1 / 4⟩, ⟨true, "0", 1 / 4⟩]⟩

/-- A deck containing exactly `cardA1` and `cardB3`. -/
def deckAB : Deck := ⟨[cardA1, cardB3], 5⟩

/-- One response totalling 2 seconds. -/
def cardC0 : Card := ⟨"c0", 0, [⟨true, "0", 2⟩]⟩

/-- Two responses totalling 0 seconds. -/
def cardC1 : Card := ⟨"c1", 0, [⟨true, "0", 0⟩, ⟨true, "0", 0⟩]⟩

/-- One response totalling 1 second. -/
def cardC2 : Card := ⟨"c2", 0, [⟨true, "0", 1⟩]⟩

/-- A three-card deck on which the report order violates both clauses of
the spec's worst-first ordering rule. -/
def deckC : Deck := ⟨[cardC0, cardC1, cardC2], 5⟩

/-- A card with an empty response history. -/
def sampleEmptyCard : Card := ⟨"p", 3, []⟩

/-- The spec's worst-first requirement on a pair listed in this order: the
later item never has strictly fewer responses, and with equal counts the
earlier item has the greater (or equal) total elapsed time. -/
def specWorstRel (a b : Card) : Prop :=
  a.responses.length ≤ b.responses.length ∧
    (a.responses.length = b.responses.length → b.totalTime ≤ a.totalTime)

instance : DecidableRel specWorstRel := fun a b => by
  unfold specWorstRel
  infer_instance

/-! ## Helper lemmas -/

lemma count_true_map_correct (l : List ResponseMetadata) :
    (l.map (fun r => r.correct)).count true = l.countP (fun r => r.correct) := by
  induction l with
  | nil => rfl
  | cons a l ih =>
    simp only [List.map_cons, List.count_cons, List.countP_cons, ih]
    cases a.correct <;> simp

lemma countP_correct_add_not (l : List ResponseMetadata) :
    l.countP (fun r => r.correct) + l.countP (fun r => !r.correct) = l.length := by
  induction l with
  | nil => rfl
  | cons a l ih =>
    cases h : a.correct <;> simp [List.countP_cons, h] <;> omega

lemma countP_correct_le_length (l : List ResponseMetadata) :
    l.countP (fun r => r.correct) ≤ l.length :=
  List.countP_le_length _

/-! ## C1 -/

/-- C1: `is_mastered` returns `(true, t)` with `t` the elapsed time of the
most recent response exactly when the history is non-empty, strictly more
responses are correct than incorrect, and the most recent response is
correct with elapsed time strictly below the threshold (so elapsed equal to
the threshold is not mastered); in every other case it returns
`(false, 0)`. -/
theorem is_mastered_iff_spec (c : Card) (th : ℚ) :
    is_mastered c th =
      (masteredSpecB c th, if masteredSpecB c th = true then lastElapsed c else 0) := by
  unfold is_mastered masteredSpecB lastElapsed
  have hcount := countP_correct_add_not c.responses
  have hle := countP_correct_le_length c.responses
  rw [count_true_map_correct]
  cases hl : c.responses.getLast? with
  | none =>
    have hnil : c.responses = [] := List.getLast?_eq_none_iff.mp hl
    simp [hnil]
  | some r =>
    have hne : c.responses ≠ [] := by
      intro h
      rw [h] at hl
      exact Option.noConfusion hl
    have hlen : 0 < c.responses.length := List.length_pos.mpr hne
    by_cases hmaj : c.responses.countP (fun r => r.correct) >
        c.responses.countP (fun r => !r.correct)
    · have hpos : c.responses.length > 0 ∧
          c.responses.countP (fun r => r.correct) >
            c.responses.length - c.responses.countP (fun r => r.correct) := by
        constructor
        · exact hlen
        · omega
      by_cases hc : r.correct = true
      · by_cases ht : r.time < th <;> simp [hpos, hne, hmaj, hc, ht]
      · simp [hpos, hne, hmaj, hc]
    · have hneg : ¬(c.responses.length > 0 ∧
          c.responses.countP (fun r => r.correct) >
            c.responses.length - c.responses.countP (fun r => r.correct)) := by
        omega
      simp [hneg, hne, hmaj]

/-! ## C2 -/

lemma log_response_answer (c : Card) (s : String) (t : ℚ) :
    (log_response c s t).2.answer = c.answer := by
  unfold log_response
  by_cases h : check_answer c s = Result.INVALID <;> simp [h]

lemma check_answer_congr (c c' : Card) (h : c.answer = c'.answer) (s : String) :
    check_answer c s = check_answer c' s := by
  unfold check_answer
  rw [h]

lemma log_response_length (c : Card) (s : String) (t : ℚ) :
    (log_response c s t).2.responses.length =
      c.responses.length + (if check_answer c s = Result.INVALID then 0 else 1) := by
  unfold log_response
  by_cases h : check_answer c s = Result.INVALID <;> simp [h]

lemma runLog_length (c : Card) (calls : List (String × ℚ)) :
    (runLog c calls).responses.length =
      c.responses.length +
        calls.countP (fun p => !(check_answer c p.1 == Result.INVALID)) := by
  induction calls generalizing c with
  | nil => simp [runLog]
  | cons p rest ih =>
    obtain ⟨s, t⟩ := p
    have hca : ∀ q, check_answer (log_response c s t).2 q = check_answer c q :=
      fun q => check_answer_congr _ _ (log_response_answer c s t) q
    simp only [runLog, ih, List.countP_cons, hca, log_response_length]
    by_cases h : check_answer c s = Result.INVALID <;> simp [h] <;> omega

/-- C2: `log_response` returns the outcome computed by `_check_answer`;
a `CORRECT` or `INCORRECT` outcome appends exactly one record (correctness
flag `outcome = CORRECT`, the raw answer string, the given elapsed time) to
the end of the history, an `INVALID` outcome leaves the card completely
unchanged; and after any sequence of calls the history has grown by
exactly the number of non-`INVALID` calls. -/
theorem log_response_spec (c : Card) (s : String) (t : ℚ)
    (calls : List (String × ℚ)) :
    log_response c s t =
      (check_answer c s,
        if check_answer c s = Result.INVALID then c
        else { c with responses :=
            c.responses ++ [⟨decide (check_answer c s = Result.CORRECT), s, t⟩] }) ∧
    (runLog c calls).responses.length =
      c.responses.length +
        calls.countP (fun p => !(check_answer c p.1 == Result.INVALID)) := by
  refine ⟨?_, runLog_length c calls⟩
  unfold log_response
  by_cases h : check_answer c s = Result.INVALID <;> simp [h]

/-! ## C8 -/

/-- C8: `get_card` on an empty deck fails (the `max` of an empty sequence
raises, modelled by `none`) instead of returning any card. -/
theorem get_card_empty (d : Deck) (k : Nat) (h : d.cards = []) :
    get_card d k = none := by
  unfold get_card onDeck
  rw [h]
  rfl

/-- Witness for C8 at the concrete empty deck. -/
theorem get_card_empty_witness : get_card ⟨[], 5⟩ 0 = none :=
  get_card_empty ⟨[], 5⟩ 0 rfl

/-! ## C9 -/

lemma generate_division_foldl (init : List Card) (vals : List (Int × Int)) :
    vals.foldl
        (fun cards p =>
          if p.1 = 0 then cards
          else cards ++ [⟨toString (p.1 * p.2) ++ " ÷ " ++ toString p.1 ++ " = ", p.2, []⟩])
        init =
      init ++ vals.filterMap
        (fun p => if p.1 = 0 then none else some (divisionCard p)) := by
  induction vals generalizing init with
  | nil => simp
  | cons p rest ih =>
    by_cases h : p.1 = 0 <;>
      simp [List.foldl_cons, List.filterMap_cons, h, ih, divisionCard]

/-- C9: the division generator produces exactly one card per pair `(a, b)`
with `a ≠ 0` (that card's expected answer is `b` and its prompt is built
from `a*b` and `a`), and nothing for a pair with `a = 0`; the threshold is
passed through. -/
theorem generate_division_spec (vals : List (Int × Int)) (th : ℚ) :
    (generate_division vals th).cards =
      vals.filterMap (fun p => if p.1 = 0 then none else some (divisionCard p)) ∧
    (∀ p : Int × Int, (divisionCard p).answer = p.2 ∧
      (divisionCard p).problem = toString (p.1 * p.2) ++ " ÷ " ++ toString p.1 ++ " = ") ∧
    (generate_division vals th).time_threshold = th := by
  refine ⟨?_, fun p => ⟨rfl, rfl⟩, rfl⟩
  unfold generate_division
  simpa using generate_division_foldl [] vals

/-! ## C3 -/

lemma mem_onDeck_iff (d : Deck) (i : Nat) :
    i ∈ onDeck d ↔
      ∃ c, d.cards.get? i = some c ∧ (is_mastered c d.time_threshold).1 = false := by
  unfold onDeck
  simp only [List.mem_map, List.mem_filter]
  constructor
  · rintro ⟨⟨j, c⟩, ⟨hmem, hmast⟩, hj⟩
    subst hj
    refine ⟨c, ?_, by simpa using hmast⟩
    exact List.mk_mem_enum_iff_get?.mp hmem
  · rintro ⟨c, hget, hmast⟩
    exact ⟨(i, c), ⟨List.mk_mem_enum_iff_get?.mpr hget, by simpa using hmast⟩, rfl⟩

lemma onDeck_ne_nil_of_unmastered (d : Deck) (c : Card) (hc : c ∈ d.cards)
    (hm : (is_mastered c d.time_threshold).1 = false) : onDeck d ≠ [] := by
  obtain ⟨i, hi⟩ := List.get_of_mem hc
  have : i.1 ∈ onDeck d := by
    rw [mem_onDeck_iff]
    exact ⟨c, by rw [List.get?_eq_get i.2, hi], hm⟩
  intro h
  rw [h] at this
  exact List.not_mem_nil _ this

lemma foldl_max_spec (key : Card → ℚ) (xs : List Card) :
    ∀ x : Card,
      ((xs.foldl (fun best c => if key best < key c then c else best) x) = x ∨
        (xs.foldl (fun best c => if key best < key c then c else best) x) ∈ xs) ∧
      key x ≤ key (xs.foldl (fun best c => if key best < key c then c else best) x) ∧
      ∀ c ∈ xs,
        key c ≤ key (xs.foldl (fun best c => if key best < key c then c else best) x) := by
  induction xs with
  | nil => intro x; simp
  | cons y ys ih =>
    intro x
    simp only [List.foldl_cons]
    obtain ⟨hmem, hge, hmax⟩ := ih (if key x < key y then y else x)
    have hxx : key x ≤ key (if key x < key y then y else x) := by
      by_cases h : key x < key y
      · simpa [h] using le_of_lt h
      · simp [h]
    have hyy : key y ≤ key (if key x < key y then y else x) := by
      by_cases h : key x < key y
      · simp [h]
      · simpa [h] using le_of_not_lt h
    refine ⟨?_, le_trans hxx hge, ?_⟩
    · rcases hmem with h | h
      · rw [h]
        by_cases hxy : key x < key y
        · right
          simp [hxy]
        · left
          simp [hxy]
      · right
        exact List.mem_cons_of_mem _ h
    · intro c hc
      rcases List.mem_cons.mp hc with h | h
      · subst h
        exact le_trans hyy hge
      · exact hmax c h

lemma pyMax_spec (key : Card → ℚ) (x : Card) (xs : List Card) :
    ∃ m, pyMax key (x :: xs) = some m ∧ m ∈ x :: xs ∧
      ∀ c ∈ x :: xs, key c ≤ key m := by
  obtain ⟨hmem, hge, hmax⟩ := foldl_max_spec key xs x
  refine ⟨_, rfl, ?_, ?_⟩
  · rcases hmem with h | h
    · rw [h]
      exact List.mem_cons_self _ _
    · exact List.mem_cons_of_mem _ h
  · intro c hc
    rcases List.mem_cons.mp hc with h | h
    · subst h
      exact hge
    · exact hmax c h

/-- C3: for a non-empty deck and any outcome `k` of the random draw,
`get_card` returns an unmastered card whenever one exists, and when every
card is mastered it returns a card whose mastery-time component is maximal
over the deck. -/
theorem get_card_policy (d : Deck) (k : Nat) (hne : d.cards ≠ []) :
    ((∃ c ∈ d.cards, (is_mastered c d.time_threshold).1 = false) →
      ∃ c, get_card d k = some c ∧ c ∈ d.cards ∧
        (is_mastered c d.time_threshold).1 = false) ∧
    ((∀ c ∈ d.cards, (is_mastered c d.time_threshold).1 = true) →
      ∃ c, get_card d k = some c ∧ c ∈ d.cards ∧
        ∀ c' ∈ d.cards,
          (is_mastered c' d.time_threshold).2 ≤ (is_mastered c d.time_threshold).2) := by
  constructor
  · rintro ⟨c, hc, hm⟩
    have hod : onDeck d ≠ [] := onDeck_ne_nil_of_unmastered d c hc hm
    unfold get_card
    cases hodd : onDeck d with
    | nil => exact absurd hodd hod
    | cons i is =>
      set od := i :: is with hset
      have hlt : k % od.length < od.length := Nat.mod_lt _ (by simp [hset])
      have hmem : od.getD (k % od.length) 0 ∈ od := by
        rw [List.getD_eq_get _ _ hlt]
        exact List.get_mem _ _ _
      have : od.getD (k % od.length) 0 ∈ onDeck d := by rw [hodd]; exact hmem
      obtain ⟨c', hget, hm'⟩ := (mem_onDeck_iff d _).mp this
      exact ⟨c', hget, List.get?_mem hget, hm'⟩
  · intro hall
    have hod : onDeck d = [] := by
      cases hodd : onDeck d with
      | nil => rfl
      | cons i is =>
        have : i ∈ onDeck d := by rw [hodd]; exact List.mem_cons_self _ _
        obtain ⟨c, hget, hm⟩ := (mem_onDeck_iff d i).mp this
        have := hall c (List.get?_mem hget)
        rw [this] at hm
        exact Bool.noConfusion hm
    unfold get_card
    rw [hod]
    cases hcards : d.cards with
    | nil => exact absurd hcards hne
    | cons x xs =>
      obtain ⟨m, hm, hmem, hmax⟩ :=
        pyMax_spec (fun c => (is_mastered c d.time_threshold).2) x xs
      exact ⟨m, hm, hmem, hmax⟩

/-- Witness for C3: a two-card deck with one unmastered card. -/
theorem get_card_policy_witness :
    (⟨[⟨"a", 1, [⟨true, "1", 2⟩]⟩, ⟨"b", 2, []⟩], 5⟩ : Deck).cards ≠ [] ∧
    ((∃ c ∈ (⟨[⟨"a", 1, [⟨true, "1", 2⟩]⟩, ⟨"b", 2, []⟩], 5⟩ : Deck).cards,
        (is_mastered c 5).1 = false) →
      ∃ c, get_card ⟨[⟨"a", 1, [⟨true, "1", 2⟩]⟩, ⟨"b", 2, []⟩], 5⟩ 0 = some c ∧
        c ∈ (⟨[⟨"a", 1, [⟨true, "1", 2⟩]⟩, ⟨"b", 2, []⟩], 5⟩ : Deck).cards ∧
        (is_mastered c 5).1 = false) := by
  refine ⟨by simp, ?_⟩
  have h := get_card_policy ⟨[⟨"a", 1, [⟨true, "1", 2⟩]⟩, ⟨"b", 2, []⟩], 5⟩ 0 (by simp)
  exact h.1

/-! ## C6 -/

/-- C6: in the deck containing exactly `cardA1` (one response totalling 2.0
seconds) and `cardB3` (three responses totalling 1.0 seconds), the
worst-first report lists B before A. -/
theorem report_example_B_before_A :
    worstOrder deckAB = [cardB3, cardA1] ∧
    cardA1.responses.length = 1 ∧ Card.totalTime cardA1 = 2 ∧
    cardB3.responses.length = 3 ∧ Card.totalTime cardB3 = 1 := by
  refine ⟨?_, rfl, ?_, rfl, ?_⟩
  · norm_num [worstOrder, pySortDesc, pySortAsc, countRun, takeDesc, takeAsc,
      binarysort, cardLT, Card.totalTime, deckAB, cardA1, cardB3]
  · norm_num [Card.totalTime, cardA1]
  · norm_num [Card.totalTime, cardB3]

/-! ## C7 -/

/-- C7 counterexample: the comparator is not asymmetric — `cardA1` (one
response, total 2) and `cardB3` (three responses, total 1) are each
strictly worse than the other. -/
theorem cardLT_not_asymmetric :
    cardLT cardA1 cardB3 = true ∧ cardLT cardB3 cardA1 = true := by
  norm_num [cardLT, Card.totalTime, cardA1, cardB3]

/-- C7 amended: the comparator is irreflexive and a pair is mutually
unordered exactly when response counts and totals both agree, but it is not
asymmetric (one card can have fewer responses while the other has the
smaller total), hence not a strict weak ordering. -/
theorem cardLT_amended :
    (∀ a : Card, cardLT a a = false) ∧
    (∀ a b : Card, (cardLT a b = false ∧ cardLT b a = false) ↔
      (a.responses.length = b.responses.length ∧ a.totalTime = b.totalTime)) ∧
    (∃ a b : Card, cardLT a b = true ∧ cardLT b a = true) := by
  refine ⟨?_, ?_, ?_⟩
  · intro a
    simp [cardLT]
  · intro a b
    constructor
    · rintro ⟨h1, h2⟩
      unfold cardLT at h1 h2
      split_ifs at h1 h2 with hab hba
      have ht1 := of_decide_eq_false h1
      have ht2 := of_decide_eq_false h2
      exact ⟨by omega, le_antisymm (le_of_not_lt ht2) (le_of_not_lt ht1)⟩
    · rintro ⟨hl, ht⟩
      unfold cardLT
      rw [hl, ht]
      simp
  · exact ⟨cardA1, cardB3, by norm_num [cardLT, Card.totalTime, cardA1, cardB3]⟩

/-! ## C5 -/

/-- C5 counterexample: in the three-card deck `deckC` the report order is
`[cardC2, cardC1, cardC0]`, where `cardC0` (one response) appears after
`cardC1` (two responses), and among the equal-count pair `cardC2`/`cardC0`
the smaller total (1 versus 2) comes first — both clauses of the claimed
ordering fail. -/
theorem worstOrder_violates_spec_rel :
    ¬ (worstOrder deckC).Pairwise specWorstRel := by
  intro h
  rw [show worstOrder deckC = [cardC2, cardC1, cardC0] from by
    norm_num [worstOrder, pySortDesc, pySortAsc, countRun, takeDesc, takeAsc,
      binarysort, cardLT, Card.totalTime, deckC, cardC0, cardC1, cardC2]] at h
  have h2 := (List.pairwise_cons.mp (List.pairwise_cons.mp h).2).1 cardC0
    (List.mem_cons_self _ _)
  simp [specWorstRel, cardC1, cardC0] at h2

/-! ## C10 -/

lemma card_str_isSome (c : Card) : (card_str c).isSome = true := by
  unfold card_str
  by_cases h : c.responses.length = 1
  · have hne : c.responses ≠ [] := by
      intro hh
      rw [hh] at h
      simp at h
    obtain ⟨r, hr⟩ := Option.isSome_iff_exists.mp (List.getLast?_isSome.mpr hne)
    simp only [h, if_true, hr]
    cases hc : r.correct <;> simp [hc]
  · simp [h]

lemma renderAll_isSome (l : List Card) : (renderAll l).isSome = true := by
  induction l with
  | nil => rfl
  | cons x xs ih =>
    obtain ⟨y, hy⟩ := Option.isSome_iff_exists.mp (card_str_isSome x)
    obtain ⟨ys, hys⟩ := Option.isSome_iff_exists.mp ih
    simp [renderAll, hy, hys]

/-- C10 counterexample: rendering a card with an empty history does not
fail — `card_str` succeeds on `sampleEmptyCard`, and `worst_cards`
succeeds on a deck containing it. -/
theorem card_str_empty_history_defined :
    (card_str sampleEmptyCard).isSome = true ∧
    (worst_cards ⟨[sampleEmptyCard], 5⟩).isSome = true :=
  ⟨card_str_isSome sampleEmptyCard, renderAll_isSome _⟩

/-- C10 amended: `Card.__str__` does read the best-time loop's variable
after the loop, but only under the guard `len(self.responses) == 1`, whose
short-circuit `and` keeps the variable from being read when the history is
empty; rendering therefore succeeds for every card (an empty history
renders with the 10000-second sentinel best time), and
`report()`/`worst_cards` succeeds for every deck, including freshly
generated ones. -/
theorem render_total :
    (∀ c : Card, (card_str c).isSome = true) ∧
    (∀ d : Deck, (worst_cards d).isSome = true) :=
  ⟨card_str_isSome, fun d => renderAll_isSome (worstOrder d)⟩

/-! ## Permutation facts about the sort model (for C4) -/

lemma insertIdx_perm (l : List α) (i : Nat) (x : α) :
    (insertIdx l i x).Perm (x :: l) := by
  unfold insertIdx
  exact List.perm_middle.trans (by rw [List.take_append_drop])

lemma binarysort_perm (lt : α → α → Bool) (rest : List α) :
    ∀ acc : List α, (binarysort lt acc rest).Perm (acc ++ rest) := by
  induction rest with
  | nil => intro acc; simp [binarysort]
  | cons x xs ih =>
    intro acc
    have h1 := ih (insertIdx acc (binSearch lt acc x 0 acc.length) x)
    have h2 : (insertIdx acc (binSearch lt acc x 0 acc.length) x ++ xs).Perm
        (acc ++ x :: xs) := by
      refine ((insertIdx_perm acc _ x).append_right xs).trans ?_
      exact List.perm_middle.symm
    exact h1.trans h2

lemma takeDesc_append (lt : α → α → Bool) (l : List α) :
    ∀ prev, (takeDesc lt prev l).1 ++ (takeDesc lt prev l).2 = l := by
  induction l with
  | nil => intro prev; rfl
  | cons x rest ih =>
    intro prev
    by_cases h : lt x prev = true <;> simp [takeDesc, h, ih x]

lemma takeAsc_append (lt : α → α → Bool) (l : List α) :
    ∀ prev, (takeAsc lt prev l).1 ++ (takeAsc lt prev l).2 = l := by
  induction l with
  | nil => intro prev; rfl
  | cons x rest ih =>
    intro prev
    by_cases h : lt x prev = true <;> simp [takeAsc, h, ih x]

lemma countRun_perm (lt : α → α → Bool) (l : List α) :
    ((countRun lt l).1 ++ (countRun lt l).2).Perm l := by
  match l with
  | [] => rfl
  | [x] => rfl
  | x :: y :: rest =>
    cases h : lt y x with
    | true =>
      simp only [countRun, h, if_true]
      refine ((List.reverse_perm _).append_right _).trans ?_
      simp only [List.cons_append]
      rw [takeDesc_append]
    | false =>
      simp only [countRun, h, Bool.false_eq_true, if_false, List.cons_append]
      rw [takeAsc_append]

lemma pySortAsc_perm (lt : α → α → Bool) (l : List α) :
    (pySortAsc lt l).Perm l := by
  unfold pySortAsc
  exact (binarysort_perm lt _ _).trans (countRun_perm lt l)

lemma pySortDesc_perm (lt : α → α → Bool) (l : List α) :
    (pySortDesc lt l).Perm l := by
  unfold pySortDesc
  exact (List.reverse_perm _).trans ((pySortAsc_perm lt l.reverse).trans
    (List.reverse_perm l))

/-! ## C4 -/

lemma card_roundtrip (c : Card) :
    Card.from_yaml_dict (Card.as_yaml_dict c) = c := by
  unfold Card.from_yaml_dict Card.as_yaml_dict
  rw [List.map_map,
    show ResponseMetadata.from_yaml_dict ∘ ResponseMetadata.as_yaml_dict = id from
      funext fun r => rfl]
  simp

/-- C4: decoding the encoding of a deck keeps the threshold, keeps the
multiset of cards (each with its prompt, expected answer, and full response
history unchanged — the per-card codec round-trips exactly), and lists the
cards in the worst-first order of the encoding rather than the original
order. -/
theorem deck_roundtrip (d : Deck) :
    (Deck.from_yaml_dict (Deck.as_yaml_dict d)).time_threshold = d.time_threshold ∧
    ((Deck.from_yaml_dict (Deck.as_yaml_dict d)).cards).Perm d.cards ∧
    (Deck.from_yaml_dict (Deck.as_yaml_dict d)).cards = pySortDesc cardLT d.cards ∧
    (∀ c : Card, Card.from_yaml_dict (Card.as_yaml_dict c) = c) := by
  have hcards : (Deck.from_yaml_dict (Deck.as_yaml_dict d)).cards
      = pySortDesc cardLT d.cards := by
    unfold Deck.from_yaml_dict Deck.as_yaml_dict
    rw [List.map_map,
      show Card.from_yaml_dict ∘ Card.as_yaml_dict = id from funext card_roundtrip]
    simp
  refine ⟨rfl, ?_, hcards, card_roundtrip⟩
  rw [hcards]
  exact pySortDesc_perm cardLT d.cards

/-! ## Sortedness of the sort model under a key comparator -/

lemma sorted_get_mono (key : α → ℚ) (l : List α)
    (hs : List.Pairwise (fun a b => key a ≤ key b) l)
    (i j : Nat) (hij : i ≤ j) (hj : j < l.length) :
    key (l.get ⟨i, lt_of_le_of_lt hij hj⟩) ≤ key (l.get ⟨j, hj⟩) := by
  rcases eq_or_lt_of_le hij with h | h
  · subst h
    exact le_refl _
  · exact List.pairwise_iff_get.mp hs ⟨i, _⟩ ⟨j, hj⟩ h

lemma binSearch_bounds (key : α → ℚ) :
    ∀ (n : Nat) (arr : List α) (pivot : α),
      List.Pairwise (fun a b => key a ≤ key b) arr →
      ∀ l r : Nat, r - l ≤ n → l ≤ r → r ≤ arr.length →
      (∀ i (hi : i < arr.length), i < l → key (arr.get ⟨i, hi⟩) ≤ key pivot) →
      (∀ i (hi : i < arr.length), r ≤ i → key pivot < key (arr.get ⟨i, hi⟩)) →
      l ≤ binSearch (keyLT key) arr pivot l r ∧
      binSearch (keyLT key) arr pivot l r ≤ r ∧
      (∀ i (hi : i < arr.length), i < binSearch (keyLT key) arr pivot l r →
        key (arr.get ⟨i, hi⟩) ≤ key pivot) ∧
      (∀ i (hi : i < arr.length), binSearch (keyLT key) arr pivot l r ≤ i →
        key pivot < key (arr.get ⟨i, hi⟩)) := by
  intro n
  induction n with
  | zero =>
    intro arr pivot hs l r hn hlr hrlen hleft hright
    rw [binSearch, dif_neg (by omega)]
    exact ⟨le_refl _, hlr, fun i hi hil => hleft i hi hil,
      fun i hi hge => hright i hi (by omega)⟩
  | succ n ih =>
    intro arr pivot hs l r hn hlr hrlen hleft hright
    by_cases hltr : l < r
    · have hpl : l ≤ l + (r - l) / 2 := by omega
      have hpr : l + (r - l) / 2 < r := by omega
      have hplen : l + (r - l) / 2 < arr.length := lt_of_lt_of_le hpr hrlen
      have hgetD : arr.getD (l + (r - l) / 2) pivot
          = arr.get ⟨l + (r - l) / 2, hplen⟩ := List.getD_eq_get arr pivot hplen
      rw [binSearch, dif_pos hltr]
      by_cases hcmp : key pivot < key (arr.get ⟨l + (r - l) / 2, hplen⟩)
      · have hklt : keyLT key pivot (arr.getD (l + (r - l) / 2) pivot) = true := by
          unfold keyLT
          rw [hgetD]
          exact decide_eq_true hcmp
        simp only [hklt, if_true]
        obtain ⟨ha, hb, hc, hd⟩ :=
          ih arr pivot hs l (l + (r - l) / 2) (by omega) hpl (le_of_lt hplen) hleft
            (fun i hi hge =>
              lt_of_lt_of_le hcmp (sorted_get_mono key arr hs _ i hge hi))
        exact ⟨ha, le_trans hb (by omega), hc, hd⟩
      · have hklt : keyLT key pivot (arr.getD (l + (r - l) / 2) pivot) = false := by
          unfold keyLT
          rw [hgetD]
          exact decide_eq_false hcmp
        simp only [hklt, Bool.false_eq_true, if_false]
        have hple : key (arr.get ⟨l + (r - l) / 2, hplen⟩) ≤ key pivot :=
          le_of_not_lt hcmp
        obtain ⟨ha, hb, hc, hd⟩ :=
          ih arr pivot hs (l + (r - l) / 2 + 1) r (by omega) (by omega) hrlen
            (fun i hi hil =>
              le_trans (sorted_get_mono key arr hs i (l + (r - l) / 2) (by omega) hplen)
                hple)
            hright
        exact ⟨le_trans (by omega) ha, hb, hc, hd⟩
    · rw [binSearch, dif_neg hltr]
      exact ⟨le_refl _, hlr, fun i hi hil => hleft i hi hil,
        fun i hi hge => hright i hi (by omega)⟩

lemma linInsert_eq_insertIdx (lt : α → α → Bool) (x : α) :
    ∀ (arr : List α) (pos : Nat), pos ≤ arr.length →
      (∀ i (hi : i < arr.length), i < pos → lt x (arr.get ⟨i, hi⟩) = false) →
      (∀ hp : pos < arr.length, lt x (arr.get ⟨pos, hp⟩) = true) →
      linInsert lt x arr = insertIdx arr pos x := by
  intro arr
  induction arr with
  | nil =>
    intro pos hpos _ _
    have h0 : pos = 0 := by simpa using hpos
    subst h0
    rfl
  | cons y ys ih =>
    intro pos hpos hbefore hat
    cases pos with
    | zero =>
      have hxy : lt x y = true := hat (by simp)
      simp [linInsert, hxy, insertIdx]
    | succ p =>
      have hxy : lt x y = false := hbefore 0 (by simp) (Nat.succ_pos p)
      simp only [linInsert, hxy, Bool.false_eq_true, if_false]
      rw [ih p (by simpa using hpos) ?_ ?_]
      · simp [insertIdx]
      · intro i hi hip
        simpa using hbefore (i + 1) (by simpa using hi) (by omega)
      · intro hp
        simpa using hat (by simpa using hp)

lemma binInsert_eq_linInsert (key : α → ℚ) (acc : List α) (x : α)
    (hs : List.Pairwise (fun a b => key a ≤ key b) acc) :
    insertIdx acc (binSearch (keyLT key) acc x 0 acc.length) x
      = linInsert (keyLT key) x acc := by
  obtain ⟨h0, hle, hbef, haft⟩ :=
    binSearch_bounds key acc.length acc x hs 0 acc.length (by omega) (by omega)
      (le_refl _) (fun i hi hlt => absurd hlt (Nat.not_lt_zero i))
      (fun i hi hge => absurd hge (not_le_of_lt hi))
  refine (linInsert_eq_insertIdx (keyLT key) x acc _ hle ?_ ?_).symm
  · intro i hi hip
    unfold keyLT
    exact decide_eq_false (not_lt_of_le (hbef i hi hip))
  · intro hp
    unfold keyLT
    exact decide_eq_true (haft _ hp (le_refl _))

lemma mem_linInsert (lt : α → α → Bool) (x a : α) :
    ∀ l : List α, a ∈ linInsert lt x l ↔ a = x ∨ a ∈ l := by
  intro l
  induction l with
  | nil => simp [linInsert]
  | cons y ys ih =>
    by_cases h : lt x y = true <;> simp [linInsert, h, ih] <;> tauto

lemma linInsert_sorted (key : α → ℚ) (x : α) :
    ∀ l : List α, List.Pairwise (fun a b => key a ≤ key b) l →
      List.Pairwise (fun a b => key a ≤ key b) (linInsert (keyLT key) x l) := by
  intro l
  induction l with
  | nil => intro _; simp [linInsert]
  | cons y ys ih =>
    intro hs
    rw [List.pairwise_cons] at hs
    obtain ⟨hy, hys⟩ := hs
    by_cases h : key x < key y
    · have hb : keyLT key x y = true := decide_eq_true h
      simp only [linInsert, hb, if_true]
      rw [List.pairwise_cons]
      constructor
      · intro b hb'
        rcases List.mem_cons.mp hb' with rfl | hb''
        · exact le_of_lt h
        · exact le_trans (le_of_lt h) (hy b hb'')
      · exact List.pairwise_cons.mpr ⟨hy, hys⟩
    · have hky : key y ≤ key x := le_of_not_lt h
      have hb : keyLT key x y = false := decide_eq_false h
      simp only [linInsert, hb, Bool.false_eq_true, if_false]
      rw [List.pairwise_cons]
      constructor
      · intro b hb'
        rcases (mem_linInsert _ _ _ ys).mp hb' with rfl | hb''
        · exact hky
        · exact hy b hb''
      · exact ih hys

lemma binarysort_sorted (key : α → ℚ) :
    ∀ (rest acc : List α), List.Pairwise (fun a b => key a ≤ key b) acc →
      List.Pairwise (fun a b => key a ≤ key b) (binarysort (keyLT key) acc rest) := by
  intro rest
  induction rest with
  | nil =>
    intro acc h
    simpa [binarysort] using h
  | cons x xs ih =>
    intro acc hs
    simp only [binarysort]
    rw [binInsert_eq_linInsert key acc x hs]
    exact ih _ (linInsert_sorted key x acc hs)

lemma takeAsc_sorted (key : α → ℚ) (l : List α) :
    ∀ prev, List.Pairwise (fun a b => key a ≤ key b)
      (prev :: (takeAsc (keyLT key) prev l).1) := by
  induction l with
  | nil => intro prev; simp [takeAsc]
  | cons x rest ih =>
    intro prev
    by_cases h : key x < key prev
    · have hb : keyLT key x prev = true := decide_eq_true h
      simp [takeAsc, hb]
    · have hpx : key prev ≤ key x := le_of_not_lt h
      have hb : keyLT key x prev = false := decide_eq_false h
      simp only [takeAsc, hb, Bool.false_eq_true, if_false]
      have hx := ih x
      rw [List.pairwise_cons]
      refine ⟨?_, hx⟩
      intro b hb'
      rcases List.mem_cons.mp hb' with rfl | hb''
      · exact hpx
      · exact le_trans hpx ((List.pairwise_cons.mp hx).1 b hb'')

lemma takeDesc_sorted (key : α → ℚ) (l : List α) :
    ∀ prev, List.Pairwise (fun a b => key b ≤ key a)
      (prev :: (takeDesc (keyLT key) prev l).1) := by
  induction l with
  | nil => intro prev; simp [takeDesc]
  | cons x rest ih =>
    intro prev
    by_cases h : key x < key prev
    · have hb : keyLT key x prev = true := decide_eq_true h
      simp only [takeDesc, hb, if_true]
      have hx := ih x
      rw [List.pairwise_cons]
      refine ⟨?_, hx⟩
      intro b hb'
      rcases List.mem_cons.mp hb' with rfl | hb''
      · exact le_of_lt h
      · exact le_trans ((List.pairwise_cons.mp hx).1 b hb'') (le_of_lt h)
    · have hb : keyLT key x prev = false := decide_eq_false h
      simp [takeDesc, hb]

lemma countRun_sorted (key : α → ℚ) (l : List α) :
    List.Pairwise (fun a b => key a ≤ key b) ((countRun (keyLT key) l).1) := by
  match l with
  | [] => simp [countRun]
  | [x] => simp [countRun]
  | x :: y :: rest =>
    by_cases h : key y < key x
    · have hb : keyLT key y x = true := decide_eq_true h
      simp only [countRun, hb, if_true]
      rw [List.pairwise_reverse]
      have hd := takeDesc_sorted key rest y
      rw [List.pairwise_cons]
      refine ⟨?_, hd⟩
      intro b hb'
      rcases List.mem_cons.mp hb' with rfl | hb''
      · exact le_of_lt h
      · exact le_trans ((List.pairwise_cons.mp hd).1 b hb'') (le_of_lt h)
    · have hxy : key x ≤ key y := le_of_not_lt h
      have hb : keyLT key y x = false := decide_eq_false h
      simp only [countRun, hb, Bool.false_eq_true, if_false]
      have ha := takeAsc_sorted key rest y
      rw [List.pairwise_cons]
      refine ⟨?_, ha⟩
      intro b hb'
      rcases List.mem_cons.mp hb' with rfl | hb''
      · exact hxy
      · exact le_trans hxy ((List.pairwise_cons.mp ha).1 b hb'')

lemma pySortAsc_sorted (key : α → ℚ) (l : List α) :
    List.Pairwise (fun a b => key a ≤ key b) (pySortAsc (keyLT key) l) := by
  unfold pySortAsc
  exact binarysort_sorted key _ _ (countRun_sorted key l)

lemma pySortDesc_sorted (key : α → ℚ) (l : List α) :
    List.Pairwise (fun a b => key b ≤ key a) (pySortDesc (keyLT key) l) := by
  unfold pySortDesc
  rw [List.pairwise_reverse]
  exact pySortAsc_sorted key l.reverse

/-! ## Comparator congruence for the sort model -/

lemma takeAsc_congr (lt lt' : α → α → Bool) :
    ∀ (l : List α) (prev : α),
      (∀ a b, a ∈ prev :: l → b ∈ prev :: l → lt a b = lt' a b) →
      takeAsc lt prev l = takeAsc lt' prev l := by
  intro l
  induction l with
  | nil => intro prev _; rfl
  | cons x rest ih =>
    intro prev hagree
    have hx : lt x prev = lt' x prev :=
      hagree x prev (by simp) (by simp)
    have hrec := ih x (fun a b ha hb =>
      hagree a b (List.mem_cons_of_mem _ ha) (List.mem_cons_of_mem _ hb))
    unfold takeAsc
    rw [hx, hrec]

lemma takeDesc_congr (lt lt' : α → α → Bool) :
    ∀ (l : List α) (prev : α),
      (∀ a b, a ∈ prev :: l → b ∈ prev :: l → lt a b = lt' a b) →
      takeDesc lt prev l = takeDesc lt' prev l := by
  intro l
  induction l with
  | nil => intro prev _; rfl
  | cons x rest ih =>
    intro prev hagree
    have hx : lt x prev = lt' x prev :=
      hagree x prev (by simp) (by simp)
    have hrec := ih x (fun a b ha hb =>
      hagree a b (List.mem_cons_of_mem _ ha) (List.mem_cons_of_mem _ hb))
    unfold takeDesc
    rw [hx, hrec]

lemma countRun_congr (lt lt' : α → α → Bool) :
    ∀ l : List α,
      (∀ a b, a ∈ l → b ∈ l → lt a b = lt' a b) →
      countRun lt l = countRun lt' l := by
  intro l hagree
  match l with
  | [] => rfl
  | [x] => rfl
  | x :: y :: rest =>
    have hyx : lt y x = lt' y x := hagree y x (by simp) (by simp)
    have hd := takeDesc_congr lt lt' rest y (fun a b ha hb =>
      hagree a b (List.mem_cons_of_mem _ ha) (List.mem_cons_of_mem _ hb))
    have ha := takeAsc_congr lt lt' rest y (fun a b ha' hb' =>
      hagree a b (List.mem_cons_of_mem _ ha') (List.mem_cons_of_mem _ hb'))
    simp only [countRun]
    rw [hyx, hd, ha]

lemma getD_mem_or_eq (arr : List α) (p : Nat) (d : α) :
    arr.getD p d = d ∨ arr.getD p d ∈ arr := by
  by_cases hp : p < arr.length
  · right
    rw [List.getD_eq_get arr d hp]
    exact List.get_mem _ _ _
  · left
    exact List.getD_eq_default arr d (by omega)

lemma binSearch_congr (lt lt' : α → α → Bool) (arr : List α) (pivot : α)
    (hagree : ∀ a b, (a = pivot ∨ a ∈ arr) → (b = pivot ∨ b ∈ arr) →
      lt a b = lt' a b) :
    ∀ (n l r : Nat), r - l ≤ n →
      binSearch lt arr pivot l r = binSearch lt' arr pivot l r := by
  intro n
  induction n with
  | zero =>
    intro l r hn
    rw [binSearch, binSearch, dif_neg (by omega), dif_neg (by omega)]
  | succ n ih =>
    intro l r hn
    by_cases hlr : l < r
    · rw [binSearch, binSearch, dif_pos hlr, dif_pos hlr]
      have hcmp : lt pivot (arr.getD (l + (r - l) / 2) pivot)
          = lt' pivot (arr.getD (l + (r - l) / 2) pivot) :=
        hagree _ _ (Or.inl rfl) (getD_mem_or_eq arr _ pivot)
      simp only [hcmp]
      by_cases hb : lt' pivot (arr.getD (l + (r - l) / 2) pivot) = true
      · rw [if_pos hb, if_pos hb]
        exact ih l (l + (r - l) / 2) (by omega)
      · rw [if_neg hb, if_neg hb]
        exact ih (l + (r - l) / 2 + 1) r (by omega)
    · rw [binSearch, binSearch, dif_neg hlr, dif_neg hlr]

lemma binarysort_congr (lt lt' : α → α → Bool) :
    ∀ (rest acc : List α),
      (∀ a b, a ∈ acc ++ rest → b ∈ acc ++ rest → lt a b = lt' a b) →
      binarysort lt acc rest = binarysort lt' acc rest := by
  intro rest
  induction rest with
  | nil => intro acc _; rfl
  | cons x xs ih =>
    intro acc hagree
    have hbs : binSearch lt acc x 0 acc.length = binSearch lt' acc x 0 acc.length := by
      refine binSearch_congr lt lt' acc x ?_ acc.length 0 acc.length (by omega)
      intro a b ha hb
      apply hagree
      · rcases ha with rfl | h
        · exact List.mem_append_right _ (List.mem_cons_self _ _)
        · exact List.mem_append_left _ h
      · rcases hb with rfl | h
        · exact List.mem_append_right _ (List.mem_cons_self _ _)
        · exact List.mem_append_left _ h
    simp only [binarysort]
    rw [hbs]
    apply ih
    intro a b ha hb
    have hmem : ∀ z : α,
        z ∈ insertIdx acc (binSearch lt' acc x 0 acc.length) x ++ xs →
          z ∈ acc ++ x :: xs := by
      intro z hz
      rcases List.mem_append.mp hz with h | h
      · rcases List.mem_cons.mp ((insertIdx_perm _ _ _).mem_iff.mp h) with rfl | h'
        · exact List.mem_append_right _ (List.mem_cons_self _ _)
        · exact List.mem_append_left _ h'
      · exact List.mem_append_right _ (List.mem_cons_of_mem _ h)
    exact hagree a b (hmem a ha) (hmem b hb)

lemma pySortAsc_congr (lt lt' : α → α → Bool) (l : List α)
    (hagree : ∀ a b, a ∈ l → b ∈ l → lt a b = lt' a b) :
    pySortAsc lt l = pySortAsc lt' l := by
  unfold pySortAsc
  rw [countRun_congr lt lt' l hagree]
  apply binarysort_congr
  intro a b ha hb
  exact hagree a b ((countRun_perm lt' l).mem_iff.mp ha)
    ((countRun_perm lt' l).mem_iff.mp hb)

lemma pySortDesc_congr (lt lt' : α → α → Bool) (l : List α)
    (hagree : ∀ a b, a ∈ l → b ∈ l → lt a b = lt' a b) :
    pySortDesc lt l = pySortDesc lt' l := by
  unfold pySortDesc
  rw [pySortAsc_congr lt lt' l.reverse (fun a b ha hb =>
    hagree a b (List.mem_reverse.mp ha) (List.mem_reverse.mp hb))]

/-- C5 amended: the fewer-responses-first rule does not describe the
listing (the counterexample deck puts an item with more responses first and
misorders an equal-count pair); what does hold is that in the worst-first
listing of a deck whose items all have the same number of responses, an
item with greater total elapsed time appears before one with smaller
total. -/
theorem worstOrder_equal_counts (d : Deck) (k : Nat)
    (h : ∀ c ∈ d.cards, c.responses.length = k) :
    List.Pairwise (fun a b : Card => b.totalTime ≤ a.totalTime) (worstOrder d) := by
  unfold worstOrder
  rw [pySortDesc_congr cardLT (keyLT Card.totalTime) d.cards ?_]
  · exact pySortDesc_sorted Card.totalTime d.cards
  · intro a b ha hb
    unfold cardLT keyLT
    rw [h a ha, h b hb]
    simp

/-- Witness for the amended C5 at a concrete two-card deck with uniform
response counts. -/
theorem worstOrder_equal_counts_witness :
    (∀ c ∈ (⟨[cardC0, cardC2], 5⟩ : Deck).cards, c.responses.length = 1) ∧
    List.Pairwise (fun a b : Card => b.totalTime ≤ a.totalTime)
      (worstOrder ⟨[cardC0, cardC2], 5⟩) := by
  have hlen : ∀ c ∈ (⟨[cardC0, cardC2], 5⟩ : Deck).cards, c.responses.length = 1 := by
    intro c hc
    rcases List.mem_cons.mp hc with rfl | hc'
    · rfl
    · rcases List.mem_cons.mp hc' with rfl | hc''
      · rfl
      · exact absurd hc'' (List.not_mem_nil c)
  exact ⟨hlen, worstOrder_equal_counts _ 1 hlen⟩

end Flashcards
